import Mathlib

/-!
Verification of the BalanceCloud chunked encryption engine against its
design documentation.

The repository ships the engine as design documents and service contracts
(`src/unnamed/part_000` — Encryption Architecture Design, `src/unnamed/part_013`
— Encryption Architecture Documentation, `src/unnamed/part_016` — Encryption
Service Contract); the executable `EncryptionService` module they describe is
not part of the source tree. Concrete algorithm snippets that do appear in the
documents (`chunk_file`, the HKDF chunk-key derivation) are embedded here
directly; SHA-256, HMAC-SHA256 and HKDF-SHA256 are implemented in full; the
AES-256-GCM AEAD and the PBKDF2 key-encryption-key derivation are library
primitives absent from the repository and are modelled at the structural level
described by the spec, with an idealized (perfectly sound) authentication tag.
-/

namespace BalanceCloud

/-! ## SHA-256 (full implementation, FIPS 180-4) -/

/-- Truncation to a 32-bit word. -/
def w32 (n : Nat) : Nat := n % 4294967296

/-- Right rotation of a 32-bit word by `n` bits. -/
def rotr32 (n x : Nat) : Nat := w32 ((x >>> n) ||| (x <<< (32 - n)))

/-- Bitwise complement within 32 bits. -/
def compl32 (x : Nat) : Nat := 4294967295 ^^^ x

def bsig0 (x : Nat) : Nat := rotr32 2 x ^^^ rotr32 13 x ^^^ rotr32 22 x

def bsig1 (x : Nat) : Nat := rotr32 6 x ^^^ rotr32 11 x ^^^ rotr32 25 x

def ssig0 (x : Nat) : Nat := rotr32 7 x ^^^ rotr32 18 x ^^^ (x >>> 3)

def ssig1 (x : Nat) : Nat := rotr32 17 x ^^^ rotr32 19 x ^^^ (x >>> 10)

def chFn (x y z : Nat) : Nat := (x &&& y) ^^^ (compl32 x &&& z)

def majFn (x y z : Nat) : Nat := (x &&& y) ^^^ (x &&& z) ^^^ (y &&& z)

/-- The 64 SHA-256 round constants. -/
def K64 : List Nat :=
  [1116352408, 1899447441, 3049323471, 3921009573, 961987163, 1508970993,
   2453635748, 2870763221, 3624381080, 310598401, 607225278, 1426881987,
   1925078388, 2162078206, 2614888103, 3248222580, 3835390401, 4022224774,
   264347078, 604807628, 770255983, 1249150122, 1555081692, 1996064986,
   2554220882, 2821834349, 2952996808, 3210313671, 3336571891, 3584528711,
   113926993, 338241895, 666307205, 773529912, 1294757372, 1396182291,
   1695183700, 1986661051, 2177026350, 2456956037, 2730485921, 2820302411,
   3259730800, 3345764771, 3516065817, 3600352804, 4094571909, 275423344,
   430227734, 506948616, 659060556, 883997877, 958139571, 1322822218,
   1537002063, 1747873779, 1955562222, 2024104815, 2227730452, 2361852424,
   2428436474, 2756734187, 3204031479, 3329325298]

/-- The eight 32-bit words of the SHA-256 working state. -/
structure H8 where
  a : Nat
  b : Nat
  c : Nat
  d : Nat
  e : Nat
  f : Nat
  g : Nat
  h : Nat
deriving DecidableEq

/-- SHA-256 initial hash value. -/
def sha256InitState : H8 :=
  ⟨0x6a09e667, 0xbb67ae85, 0x3c6ef372, 0xa54ff53a, 0x510e527f, 0x9b05688c, 0x1f83d9ab, 0x5be0cd19⟩

/-- One SHA-256 compression round. -/
def sha256Round (st : H8) (kw : Nat × Nat) : H8 :=
  let t1 := w32 (st.h + bsig1 st.e + chFn st.e st.f st.g + kw.1 + kw.2)
  let t2 := w32 (bsig0 st.a + majFn st.a st.b st.c)
  ⟨w32 (t1 + t2), st.a, st.b, st.c, w32 (st.d + t1), st.e, st.f, st.g⟩

/-- Parse a byte list into big-endian 32-bit words. -/
def bytesToWords : List Nat → List Nat
  | b0 :: b1 :: b2 :: b3 :: rest => (((b0 * 256 + b1) * 256 + b2) * 256 + b3) :: bytesToWords rest
  | _ => []

/-- Message-schedule extension, keeping the words most-recent-first in `acc`. -/
def scheduleRev : Nat → List Nat → List Nat
  | 0, acc => acc
  | n + 1, acc =>
      scheduleRev n
        (w32 (ssig1 (acc.getD 1 0) + acc.getD 6 0 + ssig0 (acc.getD 14 0) + acc.getD 15 0) :: acc)

/-- The 64-word SHA-256 message schedule of a block. -/
def schedule (ws : List Nat) : List Nat := (scheduleRev 48 ws.reverse).reverse

/-- Componentwise modular addition of working states. -/
def addH (x y : H8) : H8 :=
  ⟨w32 (x.a + y.a), w32 (x.b + y.b), w32 (x.c + y.c), w32 (x.d + y.d),
   w32 (x.e + y.e), w32 (x.f + y.f), w32 (x.g + y.g), w32 (x.h + y.h)⟩

/-- Compress one 64-byte block into the state. -/
def processBlock (st : H8) (block : List Nat) : H8 :=
  addH st ((K64.zip (schedule (bytesToWords block))).foldl sha256Round st)

/-- Fold the compression over `n` consecutive 64-byte blocks. -/
def sha256Blocks : Nat → H8 → List Nat → H8
  | 0, st, _ => st
  | n + 1, st, msg => sha256Blocks n (processBlock st (msg.take 64)) (msg.drop 64)

/-- 8-byte big-endian encoding of a length value. -/
def lenBE8 (n : Nat) : List Nat :=
  [(n >>> 56) &&& 255, (n >>> 48) &&& 255, (n >>> 40) &&& 255, (n >>> 32) &&& 255,
   (n >>> 24) &&& 255, (n >>> 16) &&& 255, (n >>> 8) &&& 255, n &&& 255]

/-- SHA-256 padding for a message of `len` bytes. -/
def sha256Pad (len : Nat) : List Nat :=
  128 :: List.replicate ((64 - ((len + 9) % 64)) % 64) 0 ++ lenBE8 (8 * len)

/-- Big-endian bytes of one 32-bit word. -/
def wordBytesBE (w : Nat) : List Nat :=
  [(w >>> 24) &&& 255, (w >>> 16) &&& 255, (w >>> 8) &&& 255, w &&& 255]

/-- Serialize the final state into the 32-byte digest. -/
def digestBytes (st : H8) : List Nat :=
  wordBytesBE st.a ++ wordBytesBE st.b ++ wordBytesBE st.c ++ wordBytesBE st.d ++
  wordBytesBE st.e ++ wordBytesBE st.f ++ wordBytesBE st.g ++ wordBytesBE st.h

/-- SHA-256 of a byte list (matches the FIPS 180-4 test vectors). -/
def sha256 (msg : List Nat) : List Nat :=
  let padded := msg ++ sha256Pad msg.length
  digestBytes (sha256Blocks (padded.length / 64) sha256InitState padded)

/-! ## Hex encoding and checksums -/

/-- Lowercase hexadecimal digit for a nibble. -/
def hexDigitChar (n : Nat) : Char := Char.ofNat (if n < 10 then 48 + n else 87 + n)

/-- The sixteen lowercase hexadecimal characters. -/
def hexAlphabet : List Char :=
  ['0', '1', '2', '3', '4', '5', '6', '7'] ++ ['8', '9', 'a', 'b', 'c', 'd', 'e', 'f']

/-- Two lowercase hex characters per byte. -/
def hexChars : List Nat → List Char
  | [] => []
  | b :: bs => hexDigitChar (b / 16 % 16) :: hexDigitChar (b % 16) :: hexChars bs

/-- Lowercase hex string of a byte list. -/
def bytesToHex (bs : List Nat) : String := ⟨hexChars bs⟩

/-- Checksum of an encrypted chunk, from src/unnamed/part_000 (Chunk Metadata:
SHA-256 hash of the encrypted chunk, stored as a 64-character hex string). -/
def calculate_checksum (data : List Nat) : String := bytesToHex (sha256 data)

/-- Checksum comparison used before decryption, from src/unnamed/part_000
(File Download Flow, step 4b: verify checksum). -/
def verify_checksum (data : List Nat) (expected : String) : Bool :=
  decide (calculate_checksum data = expected)

/-! ## HMAC-SHA256, HKDF-SHA256 and decimal formatting -/

/-- HMAC-SHA256 (RFC 2104), block size 64 bytes. -/
def hmacSha256 (key msg : List Nat) : List Nat :=
  let kh := if key.length > 64 then sha256 key else key
  let k0 := kh ++ List.replicate (64 - kh.length) 0
  sha256 ((k0.map (92 ^^^ ·)) ++ sha256 ((k0.map (54 ^^^ ·)) ++ msg))

/-- HKDF-Expand output blocks T(1), T(2), … (RFC 5869). -/
def hkdfBlocks (prk info : List Nat) : Nat → Nat → List Nat → List Nat
  | 0, _, _ => []
  | n + 1, ctr, prev =>
      let t := hmacSha256 prk (prev ++ info ++ [ctr])
      t ++ hkdfBlocks prk info n (ctr + 1) t

/-- HKDF-SHA256, extract-then-expand (RFC 5869; matches its test vectors). -/
def hkdfSha256 (salt ikm info : List Nat) (len : Nat) : List Nat :=
  (hkdfBlocks (hmacSha256 salt ikm) info ((len + 31) / 32) 1 []).take len

/-- Least-significant-first decimal digits of `n` (with fuel for structural
recursion). -/
def decDigitsAux : Nat → Nat → List Nat
  | 0, _ => []
  | fuel + 1, n => if n = 0 then [] else n % 10 :: decDigitsAux fuel (n / 10)

/-- Most-significant-first decimal digits of `n`; `[0]` for zero. -/
def toDecimalDigits (n : Nat) : List Nat :=
  if n = 0 then [0] else (decDigitsAux n n).reverse

/-- Decimal string of a natural number, as Python `f"{chunk_index}"` renders it. -/
def toDecimalStr (n : Nat) : String := ⟨(toDecimalDigits n).map (fun d => Char.ofNat (48 + d))⟩

/-- Value of a most-significant-first decimal digit list. -/
def decimalVal (l : List Nat) : Nat := l.foldl (fun acc d => 10 * acc + d) 0

/-- Bytes of a string (ASCII/UTF-8 code points; file identifiers are ASCII). -/
def strBytes (s : String) : List Nat := s.data.map Char.toNat

/-- Chunk key derivation, from src/unnamed/part_013 (Chunk Key Derivation):
`info = f"{file_id}:{chunk_index}"`, HKDF-SHA256 with the full user key as the
salt, the user key as input key material, output length 32. -/
def derive_chunk_key (user_key : List Nat) (file_id : String) (chunk_index : Nat) : List Nat :=
  hkdfSha256 user_key user_key (strBytes (file_id ++ ":" ++ toDecimalStr chunk_index)) 32

/-! ## Chunker -/

/-- Recursion core of `chunk_file`, with the input length as fuel. -/
def chunkFileAux : Nat → List Nat → Nat → List (List Nat)
  | _, [], _ => []
  | 0, _ :: _, _ => []
  | fuel + 1, d :: ds, c => ((d :: ds).take c) :: chunkFileAux fuel ((d :: ds).drop c) c

/-- Chunking algorithm, from src/unnamed/part_000 and src/unnamed/part_013
(`chunk_file`): successive `chunk_size`-byte slices of the input, the last
slice possibly shorter. -/
def chunk_file (file_data : List Nat) (chunk_size : Nat) : List (List Nat) :=
  chunkFileAux file_data.length file_data chunk_size

/-- Reassembly: concatenation of ordered segments (spec §4.4). -/
def reassemble : List (List Nat) → List Nat
  | [] => []
  | ch :: rest => ch ++ reassemble rest

/-! ## Idealized AES-256-GCM

Modelled from the spec: the AES-256-GCM AEAD used by the Chunk Cipher and the
User Key Manager is a library primitive whose implementation is not in the
repository. Following the structure documented in src/unnamed/part_013
(Encryption Format: ciphertext of the plaintext's length plus a 16-byte
authentication tag; decryption verifies the tag and fails on mismatch), the
ciphertext is the plaintext XOR a keystream determined by key and nonce, and
the authentication tag is idealized as the triple (key, nonce, ciphertext):
verification succeeds exactly when key, nonce and ciphertext all match, which
is the AEAD contract the documents rely on. -/
structure GCMCipher (κ : Type) where
  ct : List Nat
  tag : κ × List Nat × List Nat
deriving DecidableEq

/-- XOR a byte list against a keystream starting at position `i`. -/
def xorKeystream (ks : Nat → Nat) : Nat → List Nat → List Nat
  | _, [] => []
  | i, b :: bs => (b ^^^ ks i) :: xorKeystream ks (i + 1) bs

/-- Keystream for a raw 32-byte key: counter-mode expansion of SHA-256 over
key, nonce and block counter (stands in for the absent AES block cipher). -/
def chunkKeystream (key iv : List Nat) (i : Nat) : Nat :=
  (sha256 (key ++ iv ++ lenBE8 (i / 32))).getD (i % 32) 0

/-- Idealized AEAD encryption under a key of type `κ`. -/
def gcmEncrypt {κ : Type} (ks : κ → List Nat → Nat → Nat) (key : κ) (iv pt : List Nat) :
    GCMCipher κ :=
  let ct := xorKeystream (ks key iv) 0 pt
  ⟨ct, (key, iv, ct)⟩

/-- Idealized AEAD decryption: verify the tag, then undo the keystream. -/
def gcmDecrypt {κ : Type} [DecidableEq κ] (ks : κ → List Nat → Nat → Nat) (key : κ)
    (iv : List Nat) (c : GCMCipher κ) : Option (List Nat) :=
  if c.tag = (key, iv, c.ct) then some (xorKeystream (ks key iv) 0 c.ct) else none

/-- 16 tag bytes serialized from the idealized tag (its SHA-256, truncated),
giving the stored `ciphertext_with_tag` its documented byte length. -/
def tagBytes (tag : List Nat × List Nat × List Nat) : List Nat :=
  (sha256 (tag.1 ++ tag.2.1 ++ tag.2.2)).take 16

/-- The stored encrypted chunk: ciphertext followed by the 16 tag bytes
(src/unnamed/part_013, Encryption Format). -/
def ctWithTagBytes (c : GCMCipher (List Nat)) : List Nat := c.ct ++ tagBytes c.tag

/-! ## Encryption orchestrator

Modelled from the spec (§4.6) and the flows of src/unnamed/part_000 (File
Upload Flow / File Download Flow): the `EncryptionService`/orchestrator
implementation these documents describe is not in the repository. Nonces are
supplied by the caller's RNG as an explicit index-to-nonce function. -/
structure ChunkRecord where
  chunk_index : Nat
  chunk_size : Nat
  encrypted_size : Nat
  iv : List Nat
  cipher : GCMCipher (List Nat)
  checksum : String
deriving DecidableEq

/-- Encrypt one chunk: derive the chunk key, AEAD-encrypt under the supplied
nonce, and emit the metadata record (src/unnamed/part_000, File Upload Flow,
step 4). -/
def encryptChunk (user_key : List Nat) (file_id : String) (i : Nat) (iv chunkData : List Nat) :
    ChunkRecord :=
  let key := derive_chunk_key user_key file_id i
  let c := gcmEncrypt chunkKeystream key iv chunkData
  { chunk_index := i, chunk_size := chunkData.length,
    encrypted_size := (ctWithTagBytes c).length, iv := iv, cipher := c,
    checksum := calculate_checksum (ctWithTagBytes c) }

/-- Encrypt a list of chunks with consecutive indices starting at `i`. -/
def encryptChunksFrom (uk : List Nat) (fid : String) (nonces : Nat → List Nat) :
    Nat → List (List Nat) → List ChunkRecord
  | _, [] => []
  | i, ch :: rest => encryptChunk uk fid i (nonces i) ch :: encryptChunksFrom uk fid nonces (i + 1) rest

/-- Modelled from the spec: the encrypt-file pipeline (spec §4.6 Encrypt flow;
src/unnamed/part_000 File Upload Flow) — chunk the input, then encrypt each
chunk in index order. -/
def encryptFile (uk : List Nat) (fid : String) (data : List Nat) (chunk_size : Nat)
    (nonces : Nat → List Nat) : List ChunkRecord :=
  encryptChunksFrom uk fid nonces 0 (chunk_file data chunk_size)

/-- Decrypt-flow error taxonomy (spec §7). -/
inductive DecryptError where
  | CorruptMetadataError : DecryptError
  | ChunkCorruptedError : Nat → DecryptError
  | ChunkAuthenticationError : Nat → DecryptError
deriving DecidableEq

/-- Decrypt a list of chunk records in order: checksum precheck first, then
derive the chunk key and AEAD-decrypt, concatenating the plaintexts
(src/unnamed/part_000 File Download Flow, steps 4-5). -/
def decryptChunks (uk : List Nat) (fid : String) : List ChunkRecord → Except DecryptError (List Nat)
  | [] => .ok []
  | r :: rest =>
      if verify_checksum (ctWithTagBytes r.cipher) r.checksum then
        match gcmDecrypt chunkKeystream (derive_chunk_key uk fid r.chunk_index) r.iv r.cipher with
        | some pt => (decryptChunks uk fid rest).map (fun tailBytes => pt ++ tailBytes)
        | none => .error (.ChunkAuthenticationError r.chunk_index)
      else .error (.ChunkCorruptedError r.chunk_index)

/-- Modelled from the spec: the decrypt-file pipeline (spec §4.6 Decrypt flow) —
reject chunk index sequences that are not exactly `0..N-1` as
`CorruptMetadataError`, otherwise decrypt and reassemble in order. -/
def decryptFile (uk : List Nat) (fid : String) (records : List ChunkRecord) :
    Except DecryptError (List Nat) :=
  if records.map ChunkRecord.chunk_index = List.range records.length then decryptChunks uk fid records
  else .error .CorruptMetadataError

/-! ## User key sealing -/

/-- Modelled from the spec: the PBKDF2-HMAC-SHA256 key-encryption-key
derivation (spec §4.2; src/unnamed/part_016, User Encryption Keys). The
concrete PBKDF2 implementation is library code not in the repository; its
output is idealized as a symbolic derived key, injective in password, salt and
iteration count (collision-freeness of the KDF). -/
structure DerivedKey where
  password : List Nat
  salt : List Nat
  iterations : Nat
deriving DecidableEq

/-- Symbolic PBKDF2-HMAC-SHA256. -/
def pbkdf2HmacSha256 (password salt : List Nat) (iterations : Nat) : DerivedKey :=
  ⟨password, salt, iterations⟩

/-- Keystream for a derived key-encryption-key. -/
def kekKeystream (kek : DerivedKey) (iv : List Nat) (i : Nat) : Nat :=
  chunkKeystream (kek.password ++ kek.salt) iv i

/-- An at-rest encrypted user key: nonce followed by ciphertext-with-tag
(`blob = nonce ‖ ciphertext ‖ tag`, nonce and tag of fixed width). -/
structure UserKeyBlob (κ : Type) where
  nonce : List Nat
  cipher : GCMCipher κ
deriving DecidableEq

/-- The pair a seal operation persists: the blob and the salt. -/
structure SealResult where
  blob : UserKeyBlob DerivedKey
  salt : List Nat

/-- Unseal failure: AEAD tag mismatch (spec §7 `IntegrityError`). -/
inductive UnsealError where
  | IntegrityError : UnsealError
deriving DecidableEq

/-- Modelled from the spec (§4.2 `seal`; src/unnamed/part_016, Encryption
Process): derive a key-encryption-key from the master key and a fresh salt via
PBKDF2-HMAC-SHA256 with 100,000 iterations, encrypt the user key with
AES-256-GCM under the derived key and a fresh 12-byte nonce, and return blob
and salt. Salt and nonce are the caller's RNG outputs, passed explicitly. -/
def sealKey (user_key master_key salt nonce : List Nat) : SealResult :=
  let kek := pbkdf2HmacSha256 master_key salt 100000
  { blob := { nonce := nonce, cipher := gcmEncrypt kekKeystream kek nonce user_key },
    salt := salt }

/-- Modelled from the spec (§4.2 `unseal`; src/unnamed/part_016, Decryption
Process): re-derive the key-encryption-key from master key and stored salt,
AEAD-decrypt the blob, and fail with `IntegrityError` when the tag does not
verify. -/
def unsealKey (blob : UserKeyBlob DerivedKey) (salt master_key : List Nat) :
    Except UnsealError (List Nat) :=
  let kek := pbkdf2HmacSha256 master_key salt 100000
  match gcmDecrypt kekKeystream kek blob.nonce blob.cipher with
  | some k => .ok k
  | none => .error .IntegrityError

/-- User-key encryption as implemented by the architecture design,
src/unnamed/part_000 (Storage Format): AES-256-GCM directly under the master
key with a random 12-byte nonce, stored as nonce + ciphertext. -/
def encrypt_user_key (user_key master_key nonce : List Nat) : UserKeyBlob (List Nat) :=
  { nonce := nonce, cipher := gcmEncrypt chunkKeystream master_key nonce user_key }

/-- A row of the `encryption_keys` table, src/unnamed/part_000 (Database
Schema): the encrypted key blob plus a stored salt ("for future use"). -/
structure EncryptionKeyRecord where
  key_encrypted : UserKeyBlob (List Nat)
  salt : List Nat

/-- User-key decryption as implemented by the architecture design,
src/unnamed/part_000 (Key Retrieval Flow): decrypt `key_encrypted` with the
master key; the stored salt is not consulted. -/
def decrypt_user_key (rec : EncryptionKeyRecord) (master_key : List Nat) :
    Except UnsealError (List Nat) :=
  match gcmDecrypt chunkKeystream master_key rec.key_encrypted.nonce rec.key_encrypted.cipher with
  | some k => .ok k
  | none => .error .IntegrityError

/-- A sample 32-byte user key for the concrete derivation checks. -/
def sampleUserKey : List Nat := List.range 32

/-! ## Basic lemmas -/

theorem xorKeystream_involutive (ks : Nat → Nat) : ∀ (i : Nat) (bs : List Nat),
    xorKeystream ks i (xorKeystream ks i bs) = bs := by
  intro i bs
  induction bs generalizing i with
  | nil => rfl
  | cons b rest ih =>
      simp only [xorKeystream, List.cons.injEq]
      refine ⟨?_, ih (i + 1)⟩
      rw [Nat.xor_assoc, Nat.xor_self, Nat.xor_zero]

theorem xorKeystream_length (ks : Nat → Nat) : ∀ (i : Nat) (bs : List Nat),
    (xorKeystream ks i bs).length = bs.length := by
  intro i bs
  induction bs generalizing i with
  | nil => rfl
  | cons b rest ih => simp [xorKeystream, ih]

theorem gcmDecrypt_gcmEncrypt {κ : Type} [DecidableEq κ] (ks : κ → List Nat → Nat → Nat)
    (key : κ) (iv pt : List Nat) :
    gcmDecrypt ks key iv (gcmEncrypt ks key iv pt) = some pt := by
  simp [gcmDecrypt, gcmEncrypt, xorKeystream_involutive]

theorem gcmDecrypt_wrong_key {κ : Type} [DecidableEq κ] (ks : κ → List Nat → Nat → Nat)
    (key key' : κ) (iv iv' pt : List Nat) (hk : key ≠ key') :
    gcmDecrypt ks key' iv' (gcmEncrypt ks key iv pt) = none := by
  simp only [gcmDecrypt, gcmEncrypt, Prod.mk.injEq, ite_eq_right_iff]
  intro h
  exact absurd h.1 hk

theorem verify_checksum_self (data : List Nat) :
    verify_checksum data (calculate_checksum data) = true := by
  simp [verify_checksum]

/-! ## Digest and hex lengths -/

theorem digestBytes_length (st : H8) : (digestBytes st).length = 32 := by
  simp [digestBytes, wordBytesBE]

theorem sha256_length (msg : List Nat) : (sha256 msg).length = 32 := by
  simp only [sha256]
  exact digestBytes_length _

theorem hmacSha256_length (key msg : List Nat) : (hmacSha256 key msg).length = 32 := by
  simp only [hmacSha256]
  exact sha256_length _

theorem hkdfBlocks_length (prk info : List Nat) : ∀ (n ctr : Nat) (prev : List Nat),
    (hkdfBlocks prk info n ctr prev).length = 32 * n := by
  intro n
  induction n with
  | zero => intro ctr prev; rfl
  | succ m ih =>
      intro ctr prev
      simp only [hkdfBlocks, List.length_append, hmacSha256_length, ih]
      ring

theorem hkdfSha256_length_32 (salt ikm info : List Nat) :
    (hkdfSha256 salt ikm info 32).length = 32 := by
  simp [hkdfSha256, hkdfBlocks_length]

theorem derive_chunk_key_length (user_key : List Nat) (file_id : String) (chunk_index : Nat) :
    (derive_chunk_key user_key file_id chunk_index).length = 32 :=
  hkdfSha256_length_32 _ _ _

theorem tagBytes_length (tag : List Nat × List Nat × List Nat) : (tagBytes tag).length = 16 := by
  simp [tagBytes, sha256_length]

theorem hexChars_length : ∀ (bs : List Nat), (hexChars bs).length = 2 * bs.length := by
  intro bs
  induction bs with
  | nil => rfl
  | cons b rest ih =>
      simp only [hexChars, List.length_cons, ih]
      ring

theorem hexDigitChar_mem (n : Nat) (h : n < 16) : hexDigitChar n ∈ hexAlphabet := by
  interval_cases n <;> decide

theorem hexChars_mem : ∀ (bs : List Nat), ∀ c ∈ hexChars bs, c ∈ hexAlphabet := by
  intro bs
  induction bs with
  | nil => intro c hc; cases hc
  | cons b rest ih =>
      intro c hc
      simp only [hexChars, List.mem_cons] at hc
      rcases hc with h1 | h2 | h3
      · exact h1 ▸ hexDigitChar_mem _ (Nat.mod_lt _ (by norm_num))
      · exact h2 ▸ hexDigitChar_mem _ (Nat.mod_lt _ (by norm_num))
      · exact ih c h3

theorem bytesToHex_length (bs : List Nat) : (bytesToHex bs).length = 2 * bs.length := by
  simp [bytesToHex, String.length, hexChars_length]

theorem calculate_checksum_length (data : List Nat) : (calculate_checksum data).length = 64 := by
  simp [calculate_checksum, bytesToHex_length, sha256_length]

/-! ## Decimal digit lemmas -/

theorem decDigitsAux_zero (fuel : Nat) : decDigitsAux fuel 0 = [] := by
  cases fuel <;> simp [decDigitsAux]

theorem decDigitsAux_ne_nil (fuel n : Nat) (hn : 0 < n) (hf : 0 < fuel) :
    decDigitsAux fuel n ≠ [] := by
  cases fuel with
  | zero => omega
  | succ m =>
      simp only [decDigitsAux, if_neg (Nat.pos_iff_ne_zero.mp hn)]
      exact List.cons_ne_nil _ _

theorem decDigitsAux_getLast? (fuel : Nat) : ∀ (n : Nat), 0 < n → n ≤ fuel →
    (decDigitsAux fuel n).getLast? ≠ some 0 := by
  induction fuel with
  | zero => intro n h1 h2; omega
  | succ m ih =>
      intro n h1 h2
      simp only [decDigitsAux, if_neg (Nat.pos_iff_ne_zero.mp h1)]
      rcases Nat.eq_zero_or_pos (n / 10) with hd | hd
      · rw [hd, decDigitsAux_zero]
        have hlt : n < 10 := by
          rcases Nat.lt_or_ge n 10 with h | h
          · exact h
          · exact absurd (Nat.div_pos h (by norm_num)) (by omega)
        simp [Nat.mod_eq_of_lt hlt]
        omega
      · have hne : decDigitsAux m (n / 10) ≠ [] :=
          decDigitsAux_ne_nil m (n / 10) hd (by
            have := Nat.div_lt_self h1 (by norm_num : (1:Nat) < 10)
            omega)
        obtain ⟨y, t, hyt⟩ := List.exists_cons_of_ne_nil hne
        rw [hyt, List.getLast?_cons_cons, ← hyt]
        exact ih (n / 10) hd (by
          have := Nat.div_lt_self h1 (by norm_num : (1:Nat) < 10)
          omega)

theorem decDigitsAux_val (fuel : Nat) : ∀ (n : Nat), n ≤ fuel →
    (decDigitsAux fuel n).foldr (fun d acc => 10 * acc + d) 0 = n := by
  induction fuel with
  | zero =>
      intro n h
      interval_cases n
      rfl
  | succ m ih =>
      intro n h
      rcases Nat.eq_zero_or_pos n with h0 | h0
      · subst h0
        rw [decDigitsAux_zero]
        rfl
      · simp only [decDigitsAux, if_neg (Nat.pos_iff_ne_zero.mp h0), List.foldr_cons]
        rw [ih (n / 10) (by
          have := Nat.div_lt_self h0 (by norm_num : (1:Nat) < 10)
          omega)]
        omega

theorem toDecimalDigits_val (n : Nat) : decimalVal (toDecimalDigits n) = n := by
  rcases Nat.eq_zero_or_pos n with h0 | h0
  · subst h0
    rfl
  · simp only [toDecimalDigits, if_neg (Nat.pos_iff_ne_zero.mp h0), decimalVal,
      List.foldl_reverse]
    exact decDigitsAux_val n n le_rfl

theorem toDecimalDigits_no_leading_zero (n : Nat) (hn : 0 < n) :
    (toDecimalDigits n).head? ≠ some 0 := by
  simp only [toDecimalDigits, if_neg (Nat.pos_iff_ne_zero.mp hn), List.head?_reverse]
  exact decDigitsAux_getLast? n n hn le_rfl

/-! ## Chunker lemmas -/

theorem chunkFileAux_nil (fuel c : Nat) : chunkFileAux fuel [] c = [] := by
  cases fuel <;> rfl

theorem chunkFileAux_nil_iff (c : Nat) (hc : 0 < c) : ∀ (fuel : Nat) (data : List Nat),
    data.length ≤ fuel → (chunkFileAux fuel data c = [] ↔ data = []) := by
  intro fuel data hf
  cases data with
  | nil => simp [chunkFileAux]
  | cons d ds =>
      cases fuel with
      | zero => simp at hf
      | succ m =>
          simp only [chunkFileAux]
          constructor
          · intro h
            exact absurd h (List.cons_ne_nil _ _)
          · intro h
            exact absurd h (List.cons_ne_nil _ _)

theorem reassemble_chunkFileAux (c : Nat) (hc : 0 < c) : ∀ (fuel : Nat) (data : List Nat),
    data.length ≤ fuel → reassemble (chunkFileAux fuel data c) = data := by
  intro fuel
  induction fuel with
  | zero =>
      intro data hf
      have : data = [] := List.length_eq_zero.mp (Nat.le_zero.mp hf)
      subst this
      rfl
  | succ m ih =>
      intro data hf
      cases data with
      | nil => rfl
      | cons d ds =>
          simp only [chunkFileAux, reassemble]
          rw [ih ((d :: ds).drop c) (by
            simp only [List.length_drop, List.length_cons] at *
            omega)]
          exact List.take_append_drop c (d :: ds)

theorem reassemble_chunk_file (data : List Nat) (c : Nat) (hc : 0 < c) :
    reassemble (chunk_file data c) = data :=
  reassemble_chunkFileAux c hc data.length data le_rfl

theorem chunkFileAux_getD_length (c : Nat) (hc : 0 < c) : ∀ (fuel : Nat) (data : List Nat)
    (i : Nat), data.length ≤ fuel → i + 1 < (chunkFileAux fuel data c).length →
    ((chunkFileAux fuel data c).getD i []).length = c := by
  intro fuel
  induction fuel with
  | zero =>
      intro data i hf hi
      have : data = [] := List.length_eq_zero.mp (Nat.le_zero.mp hf)
      subst this
      simp [chunkFileAux] at hi
  | succ m ih =>
      intro data i hf hi
      cases data with
      | nil => simp [chunkFileAux] at hi
      | cons d ds =>
          simp only [chunkFileAux] at hi ⊢
          simp only [List.length_cons] at hi
          cases i with
          | zero =>
              have hrest : chunkFileAux m ((d :: ds).drop c) c ≠ [] := by
                intro hnil
                rw [hnil] at hi
                simp at hi
              have hdrop : (d :: ds).drop c ≠ [] := by
                intro hnil
                exact hrest (((chunkFileAux_nil_iff c hc m ((d :: ds).drop c) (by
                  simp only [List.length_drop, List.length_cons] at *
                  omega)).mpr hnil))
              have hlen : c < (d :: ds).length := by
                by_contra hle
                push_neg at hle
                exact hdrop (List.drop_eq_nil_of_le hle)
              simp only [List.getD_cons_zero, List.length_take]
              omega
          | succ j =>
              simp only [List.getD_cons_succ]
              exact ih ((d :: ds).drop c) j (by
                simp only [List.length_drop, List.length_cons] at *
                omega) (by omega)

theorem chunkFileAux_getLast? (c : Nat) (hc : 0 < c) : ∀ (fuel : Nat) (data : List Nat),
    data ≠ [] → data.length ≤ fuel →
    ((chunkFileAux fuel data c).getLast?).map List.length =
      some (if data.length % c = 0 then c else data.length % c) := by
  intro fuel
  induction fuel with
  | zero =>
      intro data hne hf
      exact absurd (List.length_eq_zero.mp (Nat.le_zero.mp hf)) hne
  | succ m ih =>
      intro data hne hf
      cases data with
      | nil => exact absurd rfl hne
      | cons d ds =>
          simp only [chunkFileAux]
          rcases Classical.em ((d :: ds).drop c = []) with hdrop | hdrop
          · have hrest : chunkFileAux m ((d :: ds).drop c) c = [] := by
              rw [hdrop]
              exact chunkFileAux_nil m c
            have hle : (d :: ds).length ≤ c := by
              by_contra hgt
              push_neg at hgt
              have := List.drop_eq_nil_iff.mp hdrop
              omega
            rw [hrest]
            simp only [List.getLast?_singleton, Option.map_some', List.length_take]
            have hlen1 : 0 < (d :: ds).length := by simp
            rcases Nat.lt_or_ge (d :: ds).length c with hlt | hge
            · rw [Nat.mod_eq_of_lt hlt, if_neg (by omega)]
              congr 1
              omega
            · have heq : (d :: ds).length = c := by omega
              rw [heq]
              simp [Nat.mod_self]
          · have hrest : chunkFileAux m ((d :: ds).drop c) c ≠ [] := by
              intro hnil
              exact hdrop ((chunkFileAux_nil_iff c hc m ((d :: ds).drop c) (by
                simp only [List.length_drop, List.length_cons] at *
                omega)).mp hnil)
            obtain ⟨y, t, hyt⟩ := List.exists_cons_of_ne_nil hrest
            rw [hyt, List.getLast?_cons_cons, ← hyt]
            have hgt : c < (d :: ds).length := by
              by_contra hle
              push_neg at hle
              exact hdrop (List.drop_eq_nil_of_le hle)
            rw [ih ((d :: ds).drop c) hdrop (by
              simp only [List.length_drop, List.length_cons] at *
              omega)]
            have hmod : ((d :: ds).drop c).length % c = (d :: ds).length % c := by
              simp only [List.length_drop]
              conv_rhs => rw [show (d :: ds).length = ((d :: ds).length - c) + c by omega]
              rw [Nat.add_mod_right]
            rw [hmod]

theorem chunkFileAux_ne_nil_mem (c : Nat) (hc : 0 < c) : ∀ (fuel : Nat) (data : List Nat),
    ∀ ch ∈ chunkFileAux fuel data c, ch ≠ [] := by
  intro fuel
  induction fuel with
  | zero =>
      intro data ch hch
      cases data <;> simp [chunkFileAux] at hch
  | succ m ih =>
      intro data ch hch
      cases data with
      | nil => simp [chunkFileAux] at hch
      | cons d ds =>
          simp only [chunkFileAux, List.mem_cons] at hch
          rcases hch with h1 | h2
          · subst h1
            obtain ⟨k, hk⟩ := Nat.exists_eq_succ_of_ne_zero (Nat.pos_iff_ne_zero.mp hc)
            rw [hk]
            simp [List.take_cons]
          · exact ih ((d :: ds).drop c) ch h2

theorem chunkFileAux_length (c : Nat) (hc : 0 < c) : ∀ (fuel : Nat) (data : List Nat),
    data ≠ [] → data.length ≤ fuel →
    (chunkFileAux fuel data c).length = (data.length - 1) / c + 1 := by
  intro fuel
  induction fuel with
  | zero =>
      intro data hne hf
      exact absurd (List.length_eq_zero.mp (Nat.le_zero.mp hf)) hne
  | succ m ih =>
      intro data hne hf
      cases data with
      | nil => exact absurd rfl hne
      | cons d ds =>
          simp only [chunkFileAux, List.length_cons]
          rcases Classical.em ((d :: ds).drop c = []) with hdrop | hdrop
          · have hrest : chunkFileAux m ((d :: ds).drop c) c = [] := by
              rw [hdrop]
              exact chunkFileAux_nil m c
            have hle : (d :: ds).length ≤ c := by
              by_contra hgt
              push_neg at hgt
              have := List.drop_eq_nil_iff.mp hdrop
              omega
            rw [hrest]
            simp only [List.length_nil]
            have : ((d :: ds).length - 1) / c = 0 :=
              Nat.div_eq_of_lt (by simp only [List.length_cons] at hle ⊢; omega)
            simp only [List.length_cons] at this
            omega
          · have hgt : c < (d :: ds).length := by
              by_contra hle
              push_neg at hle
              exact hdrop (List.drop_eq_nil_of_le hle)
            rw [ih ((d :: ds).drop c) hdrop (by
              simp only [List.length_drop, List.length_cons] at *
              omega)]
            simp only [List.length_drop, List.length_cons] at hgt ⊢
            rw [Nat.div_eq_sub_div hc (show c ≤ ds.length + 1 - 1 by omega)]
            have e : ds.length + 1 - 1 - c = ds.length + 1 - c - 1 := by omega
            rw [e]

/-! ## Orchestrator lemmas -/

theorem encryptChunksFrom_length (uk : List Nat) (fid : String) (nonces : Nat → List Nat) :
    ∀ (chunks : List (List Nat)) (i : Nat),
    (encryptChunksFrom uk fid nonces i chunks).length = chunks.length := by
  intro chunks
  induction chunks with
  | nil => intro i; rfl
  | cons ch rest ih =>
      intro i
      simp [encryptChunksFrom, ih]

theorem encryptChunksFrom_map_index (uk : List Nat) (fid : String) (nonces : Nat → List Nat) :
    ∀ (chunks : List (List Nat)) (i : Nat),
    (encryptChunksFrom uk fid nonces i chunks).map ChunkRecord.chunk_index =
      List.range' i chunks.length := by
  intro chunks
  induction chunks with
  | nil => intro i; rfl
  | cons ch rest ih =>
      intro i
      simp only [encryptChunksFrom, List.map_cons, List.length_cons, List.range'_succ,
        List.cons.injEq]
      exact ⟨rfl, ih (i + 1)⟩

theorem encryptChunk_chunk_index (uk : List Nat) (fid : String) (i : Nat) (iv ch : List Nat) :
    (encryptChunk uk fid i iv ch).chunk_index = i := rfl

theorem encryptChunk_iv (uk : List Nat) (fid : String) (i : Nat) (iv ch : List Nat) :
    (encryptChunk uk fid i iv ch).iv = iv := rfl

theorem encryptChunk_cipher (uk : List Nat) (fid : String) (i : Nat) (iv ch : List Nat) :
    (encryptChunk uk fid i iv ch).cipher =
      gcmEncrypt chunkKeystream (derive_chunk_key uk fid i) iv ch := rfl

theorem encryptChunk_checksum (uk : List Nat) (fid : String) (i : Nat) (iv ch : List Nat) :
    (encryptChunk uk fid i iv ch).checksum =
      calculate_checksum
        (ctWithTagBytes (gcmEncrypt chunkKeystream (derive_chunk_key uk fid i) iv ch)) := rfl

theorem decryptChunks_cons_ok (uk : List Nat) (fid : String) (r : ChunkRecord)
    (rest : List ChunkRecord) (pt : List Nat)
    (h1 : verify_checksum (ctWithTagBytes r.cipher) r.checksum = true)
    (h2 : gcmDecrypt chunkKeystream (derive_chunk_key uk fid r.chunk_index) r.iv r.cipher =
      some pt) :
    decryptChunks uk fid (r :: rest) =
      (decryptChunks uk fid rest).map (fun tailBytes => pt ++ tailBytes) := by
  conv_lhs => rw [decryptChunks]
  rw [h1, h2]
  rfl

theorem decryptChunks_encryptChunksFrom (uk : List Nat) (fid : String) (nonces : Nat → List Nat) :
    ∀ (chunks : List (List Nat)) (i : Nat),
    decryptChunks uk fid (encryptChunksFrom uk fid nonces i chunks) =
      Except.ok (reassemble chunks) := by
  intro chunks
  induction chunks with
  | nil => intro i; rfl
  | cons ch rest ih =>
      intro i
      have h1 : verify_checksum (ctWithTagBytes (encryptChunk uk fid i (nonces i) ch).cipher)
          (encryptChunk uk fid i (nonces i) ch).checksum = true := by
        rw [encryptChunk_cipher, encryptChunk_checksum]
        exact verify_checksum_self _
      have h2 : gcmDecrypt chunkKeystream
          (derive_chunk_key uk fid (encryptChunk uk fid i (nonces i) ch).chunk_index)
          (encryptChunk uk fid i (nonces i) ch).iv
          (encryptChunk uk fid i (nonces i) ch).cipher = some ch := by
        rw [encryptChunk_chunk_index, encryptChunk_iv, encryptChunk_cipher]
        exact gcmDecrypt_gcmEncrypt _ _ _ _
      simp only [encryptChunksFrom]
      rw [decryptChunks_cons_ok uk fid _ _ ch h1 h2, ih (i + 1)]
      rfl

/-- Claim C1: for every byte string `b` and every chunk size `c > 0`, running the
decrypt-file pipeline on the output of the encrypt-file pipeline returns exactly
`b`, for every choice of per-chunk nonces (covering in particular the edge cases
of empty input, an exact multiple of the chunk size, and one byte over). -/
theorem c1_encrypt_decrypt_round_trip (uk : List Nat) (fid : String) (b : List Nat) (c : Nat)
    (nonces : Nat → List Nat) (hc : 0 < c) :
    decryptFile uk fid (encryptFile uk fid b c nonces) = Except.ok b := by
  unfold decryptFile encryptFile
  rw [encryptChunksFrom_map_index, encryptChunksFrom_length, ← List.range_eq_range']
  rw [if_pos rfl]
  rw [decryptChunks_encryptChunksFrom, reassemble_chunk_file b c hc]

/-- Witness for C1 at a concrete input: three bytes, chunk size two. -/
theorem c1_round_trip_witness : 0 < 2 ∧
    decryptFile [9] "f" (encryptFile [9] "f" [1, 2, 3] 2 (fun _ => List.replicate 12 0)) =
      Except.ok [1, 2, 3] :=
  ⟨by decide,
    c1_encrypt_decrypt_round_trip [9] "f" [1, 2, 3] 2 (fun _ => List.replicate 12 0) (by decide)⟩

/-- Claim C4: for every input and positive chunk size, `chunk_file` produces
segments of exactly the chunk size except the final one, whose size is the
input length modulo the chunk size (or a full chunk when the length is an exact
multiple), with no empty trailing segment; and a 25 MiB input with chunk size
10 MiB yields exactly chunks of sizes 10 MiB, 10 MiB and 5 MiB. -/
theorem c4_chunker_sizes (data : List Nat) (c : Nat) (hc : 0 < c) :
    (∀ i : Nat, i + 1 < (chunk_file data c).length → ((chunk_file data c).getD i []).length = c)
    ∧ (∀ h : chunk_file data c ≠ [],
        ((chunk_file data c).getLast h).length =
          if data.length % c = 0 then c else data.length % c)
    ∧ (∀ ch ∈ chunk_file data c, ch ≠ [])
    ∧ (chunk_file (List.replicate (25 * 1024 * 1024) 0) (10 * 1024 * 1024)).map List.length =
        [10 * 1024 * 1024, 10 * 1024 * 1024, 5 * 1024 * 1024] := by
  refine ⟨?_, ?_, ?_, ?_⟩
  · intro i hi
    exact chunkFileAux_getD_length c hc data.length data i le_rfl hi
  · intro h
    have hdata : data ≠ [] := by
      intro hd
      apply h
      subst hd
      rfl
    have hl : Option.map List.length (chunk_file data c).getLast? =
        some (if data.length % c = 0 then c else data.length % c) :=
      chunkFileAux_getLast? c hc data.length data hdata le_rfl
    rw [List.getLast?_eq_getLast _ h, Option.map_some'] at hl
    exact Option.some.inj hl
  · intro ch hch
    exact chunkFileAux_ne_nil_mem c hc data.length data ch hch
  · have hC : (0:Nat) < 10 * 1024 * 1024 := by norm_num
    have hne : List.replicate (25 * 1024 * 1024) (0:Nat) ≠ [] :=
      List.ne_nil_of_length_pos (by rw [List.length_replicate]; norm_num)
    have hlen : (chunk_file (List.replicate (25 * 1024 * 1024) (0:Nat))
        (10 * 1024 * 1024)).length = 3 := by
      have h0 : (chunk_file (List.replicate (25 * 1024 * 1024) (0:Nat))
          (10 * 1024 * 1024)).length =
          ((List.replicate (25 * 1024 * 1024) (0:Nat)).length - 1) / (10 * 1024 * 1024) + 1 :=
        chunkFileAux_length _ hC _ _ hne le_rfl
      rw [h0, List.length_replicate]
    obtain ⟨a, b, d, habd⟩ := List.length_eq_three.mp hlen
    have ha : ((chunk_file (List.replicate (25 * 1024 * 1024) (0:Nat))
        (10 * 1024 * 1024)).getD 0 []).length = 10 * 1024 * 1024 :=
      chunkFileAux_getD_length _ hC _ _ 0 le_rfl
        (show 0 + 1 < (chunk_file (List.replicate (25 * 1024 * 1024) (0:Nat))
          (10 * 1024 * 1024)).length by rw [hlen]; norm_num)
    have hb : ((chunk_file (List.replicate (25 * 1024 * 1024) (0:Nat))
        (10 * 1024 * 1024)).getD 1 []).length = 10 * 1024 * 1024 :=
      chunkFileAux_getD_length _ hC _ _ 1 le_rfl
        (show 1 + 1 < (chunk_file (List.replicate (25 * 1024 * 1024) (0:Nat))
          (10 * 1024 * 1024)).length by rw [hlen]; norm_num)
    have hgl : Option.map List.length (chunk_file (List.replicate (25 * 1024 * 1024) (0:Nat))
        (10 * 1024 * 1024)).getLast? =
        some (if (List.replicate (25 * 1024 * 1024) (0:Nat)).length % (10 * 1024 * 1024) = 0
          then 10 * 1024 * 1024
          else (List.replicate (25 * 1024 * 1024) (0:Nat)).length % (10 * 1024 * 1024)) :=
      chunkFileAux_getLast? _ hC _ _ hne le_rfl
    rw [habd] at ha hb hgl
    rw [List.length_replicate] at hgl
    rw [if_neg (by norm_num)] at hgl
    have ha' : a.length = 10 * 1024 * 1024 := by simpa using ha
    have hb' : b.length = 10 * 1024 * 1024 := by simpa using hb
    have hd : d.length = 5 * 1024 * 1024 := by
      simp only [List.getLast?_cons_cons, List.getLast?_singleton, Option.map_some'] at hgl
      rw [Option.some.inj hgl]
    rw [habd]
    simp [ha', hb', hd]

/-- Witness for C4 at a concrete input: three bytes, chunk size two. -/
theorem c4_chunker_sizes_witness : 0 < 2 ∧
    ((∀ i : Nat, i + 1 < (chunk_file [5, 6, 7] 2).length →
        ((chunk_file [5, 6, 7] 2).getD i []).length = 2)
    ∧ (∀ h : chunk_file [5, 6, 7] 2 ≠ [],
        ((chunk_file [5, 6, 7] 2).getLast h).length =
          if ([5, 6, 7] : List Nat).length % 2 = 0 then 2 else ([5, 6, 7] : List Nat).length % 2)
    ∧ (∀ ch ∈ chunk_file [5, 6, 7] 2, ch ≠ [])
    ∧ (chunk_file (List.replicate (25 * 1024 * 1024) 0) (10 * 1024 * 1024)).map List.length =
        [10 * 1024 * 1024, 10 * 1024 * 1024, 5 * 1024 * 1024]) :=
  ⟨by decide, c4_chunker_sizes [5, 6, 7] 2 (by decide)⟩

/-- Claim C9: chunking the empty byte string yields no chunks, encrypting a
zero-byte file emits zero chunk records, and decrypting the empty ordered chunk
list returns the empty byte string. -/
theorem c9_empty_file (uk : List Nat) (fid : String) (c : Nat) (nonces : Nat → List Nat) :
    chunk_file [] c = [] ∧ encryptFile uk fid [] c nonces = [] ∧
      decryptFile uk fid [] = Except.ok [] :=
  ⟨rfl, rfl, rfl⟩

/-- Claim C8: a chunk-record list whose indices are not exactly `0..N-1` (a gap
or a duplicate) makes the decrypt flow fail with `CorruptMetadataError`, with no
output produced. -/
theorem c8_gap_detection (uk : List Nat) (fid : String) (records : List ChunkRecord)
    (h : records.map ChunkRecord.chunk_index ≠ List.range records.length) :
    decryptFile uk fid records = Except.error DecryptError.CorruptMetadataError := by
  unfold decryptFile
  rw [if_neg h]

/-- A chunk record with placeholder payload, used to exhibit concrete
metadata-validation failures. -/
def dummyChunkRecord (i : Nat) : ChunkRecord :=
  { chunk_index := i, chunk_size := 0, encrypted_size := 0, iv := [],
    cipher := ⟨[], ([], [], [])⟩, checksum := "" }

/-- Witness for C8 at the concrete index list `[0, 2]` (index 1 missing). -/
theorem c8_gap_detection_witness :
    ([dummyChunkRecord 0, dummyChunkRecord 2].map ChunkRecord.chunk_index ≠
      List.range [dummyChunkRecord 0, dummyChunkRecord 2].length) ∧
    decryptFile [] "f" [dummyChunkRecord 0, dummyChunkRecord 2] =
      Except.error DecryptError.CorruptMetadataError :=
  ⟨by decide, c8_gap_detection [] "f" [dummyChunkRecord 0, dummyChunkRecord 2] (by decide)⟩

/-- Claim C2: unsealing a sealed 32-byte user key with the same master key
returns exactly that key, and unsealing with a different master key fails with
`IntegrityError` rather than returning any key material. -/
theorem c2_seal_unseal (k m m1 m2 salt nonce : List Nat) :
    unsealKey (sealKey k m salt nonce).blob (sealKey k m salt nonce).salt m = Except.ok k
    ∧ (m1 ≠ m2 →
        unsealKey (sealKey k m1 salt nonce).blob (sealKey k m1 salt nonce).salt m2 =
          Except.error UnsealError.IntegrityError) := by
  constructor
  · simp only [sealKey, unsealKey]
    rw [gcmDecrypt_gcmEncrypt]
  · intro hm
    have hne : pbkdf2HmacSha256 m1 salt 100000 ≠ pbkdf2HmacSha256 m2 salt 100000 := by
      intro he
      exact hm (congrArg DerivedKey.password he)
    simp only [sealKey, unsealKey]
    rw [gcmDecrypt_wrong_key kekKeystream _ _ _ _ _ hne]

/-- Witness for C2: sealing with the all-zero master key and unsealing with the
all-one master key yields `IntegrityError`. -/
theorem c2_seal_unseal_witness :
    (List.replicate 32 (0:Nat) ≠ List.replicate 32 1) ∧
    unsealKey
        (sealKey (List.range 32) (List.replicate 32 0) [5] (List.replicate 12 0)).blob
        (sealKey (List.range 32) (List.replicate 32 0) [5] (List.replicate 12 0)).salt
        (List.replicate 32 1) = Except.error UnsealError.IntegrityError :=
  ⟨by decide,
    (c2_seal_unseal (List.range 32) (List.replicate 32 0) (List.replicate 32 0)
      (List.replicate 32 1) [5] (List.replicate 12 0)).2 (by decide)⟩

set_option maxRecDepth 1000000 in
/-- Claim C3: chunk key derivation is deterministic (two calls with equal
arguments yield identical output), and context-separating at a concrete 32-byte
key: changing either the chunk index or the file identifier changes the derived
key. -/
theorem c3_derive_deterministic_separating :
    (∀ (k : List Nat) (fid : String) (i : Nat),
        derive_chunk_key k fid i = derive_chunk_key k fid i)
    ∧ derive_chunk_key sampleUserKey "f1" 3 ≠ derive_chunk_key sampleUserKey "f1" 4
    ∧ derive_chunk_key sampleUserKey "f1" 3 ≠ derive_chunk_key sampleUserKey "f2" 3 :=
  ⟨fun _ _ _ => rfl, by decide, by decide⟩

/-- Claim C5: `derive_chunk_key` is HKDF-SHA256 with the user key as both the
salt and the input key material, `info = file_id ++ ":" ++ chunk_index` with the
index rendered in decimal without leading zeros, output length 32 bytes; and the
decrypt path, deriving with the same inputs, recovers the plaintext of the
encrypt path. -/
theorem c5_derive_spec :
    (∀ (uk : List Nat) (fid : String) (i : Nat),
        derive_chunk_key uk fid i =
          hkdfSha256 uk uk (strBytes (fid ++ ":" ++ toDecimalStr i)) 32)
    ∧ (∀ (uk : List Nat) (fid : String) (i : Nat), (derive_chunk_key uk fid i).length = 32)
    ∧ (∀ i : Nat, decimalVal (toDecimalDigits i) = i)
    ∧ (∀ i : Nat, 0 < i → (toDecimalDigits i).head? ≠ some 0)
    ∧ (∀ (uk : List Nat) (fid : String) (i : Nat) (iv ch : List Nat),
        gcmDecrypt chunkKeystream (derive_chunk_key uk fid i) iv
          (encryptChunk uk fid i iv ch).cipher = some ch) := by
  refine ⟨fun _ _ _ => rfl, derive_chunk_key_length, toDecimalDigits_val,
    toDecimalDigits_no_leading_zero, ?_⟩
  intro uk fid i iv ch
  rw [encryptChunk_cipher]
  exact gcmDecrypt_gcmEncrypt _ _ _ _

/-- Witness for C5 at the concrete index 3: a positive index has no leading
zero in its decimal rendering. -/
theorem c5_derive_spec_witness : 0 < 3 ∧ (toDecimalDigits 3).head? ≠ some 0 :=
  ⟨by decide, c5_derive_spec.2.2.2.1 3 (by decide)⟩

/-- Claim C6: `seal` derives its key-encryption-key from the master key and the
fresh salt via PBKDF2-HMAC-SHA256 with 100,000 iterations and encrypts under
that derived key, not under the master key directly; the returned salt and
nonce are the ones generated; and the stored salt is a functional input to
unsealing — unsealing with any other salt fails with `IntegrityError` while the
recorded salt succeeds. -/
theorem c6_seal_structure (k m s s' nonce : List Nat) :
    (sealKey k m s nonce).blob.cipher.tag.1 = pbkdf2HmacSha256 m s 100000
    ∧ ((sealKey k m s nonce).salt = s ∧ (sealKey k m s nonce).blob.nonce = nonce)
    ∧ (s ≠ s' →
        unsealKey (sealKey k m s nonce).blob s' m = Except.error UnsealError.IntegrityError)
    ∧ unsealKey (sealKey k m s nonce).blob s m = Except.ok k := by
  refine ⟨rfl, ⟨rfl, rfl⟩, ?_, ?_⟩
  · intro hs
    have hne : pbkdf2HmacSha256 m s 100000 ≠ pbkdf2HmacSha256 m s' 100000 := by
      intro he
      exact hs (congrArg DerivedKey.salt he)
    simp only [sealKey, unsealKey]
    rw [gcmDecrypt_wrong_key kekKeystream _ _ _ _ _ hne]
  · simp only [sealKey, unsealKey]
    rw [gcmDecrypt_gcmEncrypt]

/-- Witness for C6: unsealing with salt `[1]` a key sealed with salt `[0]`
yields `IntegrityError`. -/
theorem c6_seal_structure_witness :
    (([0] : List Nat) ≠ [1]) ∧
    unsealKey (sealKey (List.range 32) (List.replicate 32 7) [0] (List.replicate 12 0)).blob [1]
      (List.replicate 32 7) = Except.error UnsealError.IntegrityError :=
  ⟨by decide,
    (c6_seal_structure (List.range 32) (List.replicate 32 7) [0] [1]
      (List.replicate 12 0)).2.2.1 (by decide)⟩

/-- Claim C7: the per-chunk checksum emitted by encryption is the SHA-256 hex
digest of the entire encrypted chunk including its tag — a 64-character string
over the lowercase hex alphabet, a function of the stored ciphertext bytes
alone (no key needed) — it is not the (32-hex-character) GCM tag, and it is
checked before any decryption is attempted: a record failing the checksum
precheck is rejected as `ChunkCorruptedError`. -/
theorem c7_checksum_spec :
    (∀ (uk : List Nat) (fid : String) (i : Nat) (iv ch : List Nat),
        (encryptChunk uk fid i iv ch).checksum =
          bytesToHex (sha256 (ctWithTagBytes (encryptChunk uk fid i iv ch).cipher)))
    ∧ (∀ (uk : List Nat) (fid : String) (i : Nat) (iv ch : List Nat),
        ((encryptChunk uk fid i iv ch).checksum).length = 64)
    ∧ (∀ (uk : List Nat) (fid : String) (i : Nat) (iv ch : List Nat),
        ∀ c2 ∈ ((encryptChunk uk fid i iv ch).checksum).data, c2 ∈ hexAlphabet)
    ∧ (∀ (uk : List Nat) (fid : String) (i : Nat) (iv ch : List Nat),
        (encryptChunk uk fid i iv ch).checksum ≠
          bytesToHex (tagBytes (encryptChunk uk fid i iv ch).cipher.tag))
    ∧ (∀ (uk : List Nat) (fid : String) (r : ChunkRecord) (rest : List ChunkRecord),
        verify_checksum (ctWithTagBytes r.cipher) r.checksum = false →
          decryptChunks uk fid (r :: rest) =
            Except.error (DecryptError.ChunkCorruptedError r.chunk_index)) := by
  refine ⟨?_, ?_, ?_, ?_, ?_⟩
  · intro uk fid i iv ch
    rw [encryptChunk_checksum, encryptChunk_cipher]
    rfl
  · intro uk fid i iv ch
    rw [encryptChunk_checksum]
    exact calculate_checksum_length _
  · intro uk fid i iv ch c2 hc2
    rw [encryptChunk_checksum] at hc2
    exact hexChars_mem _ c2 hc2
  · intro uk fid i iv ch he
    have h1 : ((encryptChunk uk fid i iv ch).checksum).length = 64 := by
      rw [encryptChunk_checksum]
      exact calculate_checksum_length _
    have h2 : (bytesToHex (tagBytes (encryptChunk uk fid i iv ch).cipher.tag)).length = 32 := by
      rw [bytesToHex_length, tagBytes_length]
    rw [he, h2] at h1
    omega
  · intro uk fid r rest hv
    conv_lhs => rw [decryptChunks]
    rw [hv]
    rfl

set_option maxRecDepth 1000000 in
/-- Witness for C7: a record whose checksum field is the empty string fails the
precheck and is rejected as corrupted. -/
theorem c7_checksum_spec_witness :
    verify_checksum (ctWithTagBytes (dummyChunkRecord 0).cipher) (dummyChunkRecord 0).checksum
        = false ∧
    decryptChunks [] "f" [dummyChunkRecord 0] =
      Except.error (DecryptError.ChunkCorruptedError (dummyChunkRecord 0).chunk_index) :=
  ⟨by decide, c7_checksum_spec.2.2.2.2 [] "f" (dummyChunkRecord 0) [] (by decide)⟩

/-- Claim C10: in the storage design of the architecture document the stored
salt is inert — `decrypt_user_key` depends only on the encrypted blob and the
master key, so unsealing the same blob with any two stored salts gives the same
result; and the design round-trips under the master key alone. -/
theorem c10_salt_inert :
    (∀ (blob : UserKeyBlob (List Nat)) (m s1 s2 : List Nat),
        decrypt_user_key { key_encrypted := blob, salt := s1 } m =
          decrypt_user_key { key_encrypted := blob, salt := s2 } m)
    ∧ (∀ (k m nonce s : List Nat),
        decrypt_user_key { key_encrypted := encrypt_user_key k m nonce, salt := s } m =
          Except.ok k) := by
  constructor
  · intro blob m s1 s2
    rfl
  · intro k m nonce s
    simp only [decrypt_user_key, encrypt_user_key]
    rw [gcmDecrypt_gcmEncrypt]

end BalanceCloud
